import Mathlib

/-!
Verification development for the Boltzmann wealth model of the repository's
tutorial notebook (docs/tutorials/visualization_tutorial.ipynb).

The notebook defines, in Python on top of the mesa library:
  compute_gini, MoneyAgent (move / give_money / step) and MoneyModel
  (construction and step).
Those functions are embedded below as executable Lean definitions.  The mesa
library functions the notebook calls (MultiGrid.get_neighborhood,
MultiGrid.get_cell_list_contents, AgentSet.shuffle_do, DataCollector.collect,
the seeded random generators) are not part of the given sources; they are
modelled from the specification document, and each such definition carries a
doc comment saying so.

Randomness: the model owns a single seeded pseudo-random source.  It is
embedded as an explicit finite stream of naturals (a List Nat, read with
default 0 past the end); every stochastic choice consumes the next stream
element.  Two models with the same seed share the same stream, so the
determinism contract becomes functionality in the stream.  Python's
random.choice(seq) is seq[r % len(seq)] for the drawn r and raises on an
empty sequence; it is embedded as an Option-valued lookup.
-/

namespace Boltzmann

/-- State of one MoneyAgent: its grid position and its wealth counter.
Wealth is embedded as an Int (Python int), so non-negativity is a theorem,
not a typing artifact. -/
structure AgentSt where
  pos : Nat × Nat
  wealth : Int
deriving DecidableEq, Repr

/-- State of one MoneyModel.  Agents are listed in creation order; an agent is
identified by its index in this list (mesa's unique ids in creation order).
The gini and wealthTable fields are the DataCollector's model-level and
agent-level series. -/
structure ModelState where
  width : Nat
  height : Nat
  num_agents : Nat
  agents : List AgentSt
  rng : List Nat
  rngIdx : Nat
  steps : Nat
  gini : List ℚ
  wealthTable : List (List Int)
deriving DecidableEq, Repr

/-- Read the next pseudo-random value of the shared stream. -/
def drawAt (rng : List Nat) (i : Nat) : Nat :=
  rng.getD i 0

/-- Python random.choice: returns seq[r % len] for the drawn r, and fails
(IndexError) on an empty sequence. -/
def choice {α : Type} (l : List α) (r : Nat) : Option α :=
  l.get? (r % l.length)

/-- Modelled from the spec: SpatialIndex.neighborhood (mesa
MultiGrid.get_neighborhood, absent from the given sources) with the toroidal
boundary policy the model fixes at construction, radius 1, Moore
neighborhood, center excluded — the set of positions at Chebyshev distance
at most 1 from pos, wrapped modulo width/height, excluding the center
position itself (deduplicated; returned in row-major delta order). -/
def get_neighborhood (width height : Nat) (pos : Nat × Nat) : List (Nat × Nat) :=
  let deltas : List (Int × Int) :=
    [(-1, -1), (-1, 0), (-1, 1), (0, -1), (0, 1), (1, -1), (1, 0), (1, 1)]
  (((deltas.map fun d =>
      ((((pos.1 : Int) + d.1).emod (width : Int)).toNat,
       (((pos.2 : Int) + d.2).emod (height : Int)).toNat)).filter
    fun p => p ≠ pos).dedup)

/-- Modelled from the spec: SpatialIndex.contents via mesa
MultiGrid.get_cell_list_contents (absent from the given sources) — the set of
agents currently occupying the given cell, here as the list of their indices
in population order. -/
def cellmates (s : ModelState) (p : Nat × Nat) : List Nat :=
  (List.range s.agents.length).filter fun j =>
    decide ((s.agents.get? j).map AgentSt.pos = some p)

/-- Add d to the wealth of the agent at index i (out-of-range index: no
change).  Embeds a Python attribute update other.wealth += d. -/
def updWealth : List AgentSt → Nat → Int → List AgentSt
  | [], _, _ => []
  | a :: l, 0, d => { a with wealth := a.wealth + d } :: l
  | a :: l, i + 1, d => a :: updWealth l i d

/-- Set the position of the agent at index i (out-of-range index: no change).
Embeds mesa's grid.move_agent, which updates the moved agent's position. -/
def setPos : List AgentSt → Nat → Nat × Nat → List AgentSt
  | [], _, _ => []
  | a :: l, 0, p => { a with pos := p } :: l
  | a :: l, i + 1, p => a :: setPos l i p

/-- MoneyAgent.move, from the notebook source:
possible_steps = grid.get_neighborhood(pos, moore=True, include_center=False);
new_position = random.choice(possible_steps); grid.move_agent(self, new_position).
The result is none when random.choice fails (empty sequence). -/
def moveAgent (s : ModelState) (i : Nat) : Option ModelState :=
  match s.agents.get? i with
  | none => none
  | some a =>
    match choice (get_neighborhood s.width s.height a.pos) (drawAt s.rng s.rngIdx) with
    | none => none
    | some q => some { s with agents := setPos s.agents i q, rngIdx := s.rngIdx + 1 }

/-- MoneyAgent.give_money, from the notebook source:
cellmates = grid.get_cell_list_contents([pos]);
if len(cellmates) > 1: other = random.choice(cellmates);
other.wealth += 1; self.wealth -= 1.
Note the acting agent itself is among the cellmates and can be chosen.
The inner none branch is unreachable (cellmates is then nonempty). -/
def give_money (s : ModelState) (i : Nat) : ModelState :=
  match s.agents.get? i with
  | none => s
  | some a =>
    let mates := cellmates s a.pos
    if 1 < mates.length then
      match choice mates (drawAt s.rng s.rngIdx) with
      | none => s
      | some other =>
        { s with agents := updWealth (updWealth s.agents other 1) i (-1),
                 rngIdx := s.rngIdx + 1 }
    else s

/-- MoneyAgent.step, from the notebook source: self.move(); then, if
self.wealth > 0, self.give_money().  A failure of move propagates. -/
def agentStep (s : ModelState) (i : Nat) : Option ModelState :=
  (moveAgent s i).map fun s1 =>
    match s1.agents.get? i with
    | none => s1
    | some a => if 0 < a.wealth then give_money s1 i else s1

/-- compute_gini, from the notebook source:
x = sorted(agent_wealths); N = model.num_agents;
B = sum(xi * (N - i) for i, xi in enumerate(x)) / (N * sum(x));
return 1 + (1 / N) - 2 * B.
The divisions are embedded over ℚ; the unguarded Python division by
N * sum(x) = 0 (a ZeroDivisionError) is embedded as none. -/
def compute_gini (N : Nat) (wealths : List Int) : Option ℚ :=
  let x := List.insertionSort (fun a b => a ≤ b) wealths
  let denom : Int := (N : Int) * x.sum
  if denom = 0 then none
  else
    let B : ℚ :=
      ((x.enum.map fun p => ((p.2 : ℚ) * ((N : ℚ) - (p.1 : ℚ)))).sum) / (denom : ℚ)
    some (1 + 1 / (N : ℚ) - 2 * B)

/-- Modelled from the spec: MetricsCollector.collect via mesa
DataCollector.collect (absent from the given sources) — append the model-level
reporter value (the Gini coefficient of the current wealths) and the
agent-level reporter values (each agent's wealth) for the current tick,
without mutating simulation state; a failing reporter propagates. -/
def collect (s : ModelState) : Option ModelState :=
  (compute_gini s.num_agents (s.agents.map AgentSt.wealth)).map fun g =>
    { s with gini := s.gini ++ [g],
             wealthTable := s.wealthTable ++ [s.agents.map AgentSt.wealth] }

/-- Modelled from the spec: the activation-order draw of mesa's
AgentSet.shuffle_do (absent from the given sources) — a uniformly random
permutation of the population drawn fresh from the shared random source,
embedded as repeated pick-and-remove driven by the stream; fuel is the list
length.  Returns the permuted list and the next stream index. -/
def shuffleFuel (rng : List Nat) : Nat → Nat → List Nat → List Nat × Nat
  | 0, idx, l => (l, idx)
  | _ + 1, idx, [] => ([], idx)
  | fuel + 1, idx, l@(_ :: _) =>
    let j := drawAt rng idx % l.length
    let a := l.getD j 0
    let p := shuffleFuel rng fuel (idx + 1) (l.eraseIdx j)
    (a :: p.1, p.2)

/-- Modelled from the spec: shuffle as used by AgentSet.shuffle_do. -/
def shuffle (rng : List Nat) (idx : Nat) (l : List Nat) : List Nat × Nat :=
  shuffleFuel rng l.length idx l

/-- MoneyModel.step, from the notebook source:
self.agents.shuffle_do("step"); self.datacollector.collect(self).
Draws a fresh permutation of the population from the shared stream, runs each
agent's step sequentially in that order, increments the step counter, then
performs one metrics capture.  A failure of any agent step propagates. -/
def modelStep (s : ModelState) : Option ModelState :=
  let p := shuffle s.rng s.rngIdx (List.range s.agents.length)
  (p.1.foldlM agentStep { s with rngIdx := p.2 }).bind fun s1 =>
    collect { s1 with steps := s1.steps + 1 }

/-- MoneyModel.__init__, from the notebook source: create n agents, each with
wealth 1 (MoneyAgent.__init__ sets self.wealth = 1), place agent i at
(x_i, y_i) with x = rng.integers(0, width, size=n) and
y = rng.integers(0, height, size=n) (embedded as the first 2n stream draws,
reduced mod width/height), then perform the initial tick-0 metrics capture. -/
def mkModel (n width height : Nat) (rng : List Nat) : Option ModelState :=
  let agents := (List.range n).map fun i =>
    { pos := (drawAt rng i % width, drawAt rng (n + i) % height),
      wealth := (1 : Int) }
  collect
    { width := width, height := height, num_agents := n, agents := agents,
      rng := rng, rngIdx := 2 * n, steps := 0, gini := [], wealthTable := [] }

/-- Run k calls of Model.step from a given state. -/
def stepK : Nat → ModelState → Option ModelState
  | 0, s => some s
  | k + 1, s => (modelStep s).bind (stepK k)

/-- Construct the model and run k calls of Model.step. -/
def runModel (n width height : Nat) (rng : List Nat) (k : Nat) : Option ModelState :=
  (mkModel n width height rng).bind (stepK k)

/-- Total wealth of a population. -/
def wsum (l : List AgentSt) : Int :=
  (l.map AgentSt.wealth).sum

/-- Total wealth of a model state. -/
def totalWealth (s : ModelState) : Int :=
  wsum s.agents

/-! ### Basic lemmas about the population-update primitives -/

theorem length_updWealth (l : List AgentSt) (i : Nat) (d : Int) :
    (updWealth l i d).length = l.length := by
  induction l generalizing i with
  | nil => rfl
  | cons a l ih =>
    cases i with
    | zero => rfl
    | succ i => simp [updWealth, ih]

theorem length_setPos (l : List AgentSt) (i : Nat) (p : Nat × Nat) :
    (setPos l i p).length = l.length := by
  induction l generalizing i with
  | nil => rfl
  | cons a l ih =>
    cases i with
    | zero => rfl
    | succ i => simp [setPos, ih]

theorem get?_updWealth (l : List AgentSt) (i : Nat) (d : Int) (j : Nat) :
    (updWealth l i d).get? j
      = (l.get? j).map fun a =>
          if j = i then { a with wealth := a.wealth + d } else a := by
  induction l generalizing i j with
  | nil => simp [updWealth]
  | cons a l ih =>
    cases i with
    | zero =>
      cases j with
      | zero => simp [updWealth]
      | succ j => simp [updWealth]
    | succ i =>
      cases j with
      | zero => simp [updWealth]
      | succ j => simpa [updWealth, Nat.succ_inj] using ih i j

theorem get?_setPos (l : List AgentSt) (i : Nat) (p : Nat × Nat) (j : Nat) :
    (setPos l i p).get? j
      = (l.get? j).map fun a => if j = i then { a with pos := p } else a := by
  induction l generalizing i j with
  | nil => simp [setPos]
  | cons a l ih =>
    cases i with
    | zero =>
      cases j with
      | zero => simp [setPos]
      | succ j => simp [setPos]
    | succ i =>
      cases j with
      | zero => simp [setPos]
      | succ j => simpa [setPos, Nat.succ_inj] using ih i j

theorem wsum_updWealth (l : List AgentSt) (i : Nat) (d : Int) (h : i < l.length) :
    wsum (updWealth l i d) = wsum l + d := by
  induction l generalizing i with
  | nil => simp at h
  | cons a l ih =>
    cases i with
    | zero => simp [updWealth, wsum]; ring
    | succ i =>
      have h' : i < l.length := Nat.lt_of_succ_lt_succ h
      simp only [updWealth, wsum, List.map_cons, List.sum_cons] at *
      rw [ih i h']
      ring

theorem wsum_setPos (l : List AgentSt) (i : Nat) (p : Nat × Nat) :
    wsum (setPos l i p) = wsum l := by
  induction l generalizing i with
  | nil => rfl
  | cons a l ih =>
    cases i with
    | zero => simp [setPos, wsum]
    | succ i => simp only [setPos, wsum, List.map_cons, List.sum_cons] at *; rw [ih i]

theorem mem_cellmates_lt (s : ModelState) (p : Nat × Nat) (j : Nat)
    (h : j ∈ cellmates s p) : j < s.agents.length := by
  have := (List.mem_filter.mp h).1
  exact List.mem_range.mp this

theorem choice_mem {α : Type} (l : List α) (r : Nat) (a : α)
    (h : choice l r = some a) : a ∈ l :=
  List.get?_mem h

/-! ### The shuffle produces a permutation of the population -/

theorem perm_getD_cons_eraseIdx (l : List Nat) (j : Nat) (h : j < l.length) :
    (l.getD j 0 :: l.eraseIdx j).Perm l := by
  induction l generalizing j with
  | nil => simp at h
  | cons x xs ih =>
    cases j with
    | zero => simp [List.eraseIdx]
    | succ j =>
      have h' : j < xs.length := Nat.lt_of_succ_lt_succ h
      have step1 : (xs.getD j 0 :: x :: xs.eraseIdx j).Perm
          (x :: xs.getD j 0 :: xs.eraseIdx j) := List.Perm.swap _ _ _
      have step2 : (x :: xs.getD j 0 :: xs.eraseIdx j).Perm (x :: xs) :=
        List.Perm.cons x (ih j h')
      simpa [List.eraseIdx] using step1.trans step2

theorem shuffleFuel_perm (rng : List Nat) (fuel : Nat) :
    ∀ idx l, (shuffleFuel rng fuel idx l).1.Perm l := by
  induction fuel with
  | zero => intro idx l; exact List.Perm.refl l
  | succ fuel ih =>
    intro idx l
    cases l with
    | nil => exact List.Perm.refl []
    | cons x xs =>
      have hlt : drawAt rng idx % (x :: xs).length < (x :: xs).length :=
        Nat.mod_lt _ (by simp)
      have htail := ih (idx + 1) ((x :: xs).eraseIdx (drawAt rng idx % (x :: xs).length))
      have hcons := List.Perm.cons ((x :: xs).getD (drawAt rng idx % (x :: xs).length) 0) htail
      exact hcons.trans (perm_getD_cons_eraseIdx _ _ hlt)

theorem shuffle_perm (rng : List Nat) (idx : Nat) (l : List Nat) :
    (shuffle rng idx l).1.Perm l :=
  shuffleFuel_perm rng l.length idx l

/-! ### Wealth is conserved by every phase of a step -/

theorem give_money_total (s : ModelState) (i : Nat) :
    totalWealth (give_money s i) = totalWealth s := by
  unfold give_money
  cases hga : s.agents.get? i with
  | none => rfl
  | some a =>
    simp only []
    by_cases hm : 1 < (cellmates s a.pos).length
    · rw [if_pos hm]
      cases hc : choice (cellmates s a.pos) (drawAt s.rng s.rngIdx) with
      | none => rfl
      | some other =>
        have hi : i < s.agents.length := by
          rcases List.get?_eq_some.mp hga with ⟨h, _⟩
          exact h
        have ho : other < s.agents.length :=
          mem_cellmates_lt s a.pos other (choice_mem _ _ _ hc)
        show totalWealth
            { s with agents := updWealth (updWealth s.agents other 1) i (-1),
                     rngIdx := s.rngIdx + 1 } = totalWealth s
        simp only [totalWealth]
        rw [wsum_updWealth _ _ _ (by rw [length_updWealth]; exact hi),
          wsum_updWealth _ _ _ ho]
        ring
    · rw [if_neg hm]

theorem moveAgent_total (s : ModelState) (i : Nat) (t : ModelState)
    (h : moveAgent s i = some t) : totalWealth t = totalWealth s := by
  unfold moveAgent at h
  split at h
  · exact absurd h (by simp)
  split at h
  · exact absurd h (by simp)
  simp only [Option.some.injEq] at h
  subst h
  simp [totalWealth, wsum_setPos]

theorem agentStep_total (s : ModelState) (i : Nat) (t : ModelState)
    (h : agentStep s i = some t) : totalWealth t = totalWealth s := by
  unfold agentStep at h
  rcases Option.map_eq_some'.mp h with ⟨s1, hmv, ht⟩
  have h1 : totalWealth s1 = totalWealth s := moveAgent_total s i s1 hmv
  subst ht
  cases hga : s1.agents.get? i with
  | none => simpa [hga] using h1
  | some a =>
    by_cases hw : 0 < a.wealth
    · simpa [hga, hw, give_money_total] using h1
    · simpa [hga, hw] using h1

theorem foldl_agentStep_total (order : List Nat) :
    ∀ s t : ModelState, order.foldlM agentStep s = some t →
      totalWealth t = totalWealth s := by
  induction order with
  | nil =>
    intro s t h
    simp only [List.foldlM_nil, pure, Option.some.injEq] at h
    subst h; rfl
  | cons i rest ih =>
    intro s t h
    rw [List.foldlM_cons] at h
    rcases Option.bind_eq_some.mp h with ⟨s1, h1, h2⟩
    exact (ih s1 t h2).trans (agentStep_total s i s1 h1)

theorem collect_frame (s t : ModelState) (h : collect s = some t) :
    t.agents = s.agents ∧ t.gini.length = s.gini.length + 1 ∧
      t.wealthTable.length = s.wealthTable.length + 1 ∧ t.steps = s.steps := by
  unfold collect at h
  rcases Option.map_eq_some'.mp h with ⟨g, _, ht⟩
  subst ht
  simp

theorem give_money_frame (s : ModelState) (i : Nat) :
    (give_money s i).gini = s.gini ∧ (give_money s i).wealthTable = s.wealthTable := by
  unfold give_money
  split
  · exact ⟨rfl, rfl⟩
  simp only []
  split
  · split
    · exact ⟨rfl, rfl⟩
    · exact ⟨rfl, rfl⟩
  · exact ⟨rfl, rfl⟩

theorem agentStep_frame (s : ModelState) (i : Nat) (t : ModelState)
    (h : agentStep s i = some t) :
    t.gini = s.gini ∧ t.wealthTable = s.wealthTable := by
  unfold agentStep at h
  rcases Option.map_eq_some'.mp h with ⟨s1, hmv, ht⟩
  have h1 : s1.gini = s.gini ∧ s1.wealthTable = s.wealthTable := by
    unfold moveAgent at hmv
    split at hmv
    · exact absurd hmv (by simp)
    split at hmv
    · exact absurd hmv (by simp)
    simp only [Option.some.injEq] at hmv
    subst hmv
    exact ⟨rfl, rfl⟩
  subst ht
  cases hga : s1.agents.get? i with
  | none => simpa [hga] using h1
  | some a =>
    by_cases hw : 0 < a.wealth
    · simpa [hga, hw, give_money_frame] using h1
    · simpa [hga, hw] using h1

theorem foldl_agentStep_frame (order : List Nat) :
    ∀ s t : ModelState, order.foldlM agentStep s = some t →
      t.gini = s.gini ∧ t.wealthTable = s.wealthTable := by
  induction order with
  | nil =>
    intro s t h
    simp only [List.foldlM_nil, pure, Option.some.injEq] at h
    subst h; exact ⟨rfl, rfl⟩
  | cons i rest ih =>
    intro s t h
    rw [List.foldlM_cons] at h
    rcases Option.bind_eq_some.mp h with ⟨s1, h1, h2⟩
    have ha := agentStep_frame s i s1 h1
    have hb := ih s1 t h2
    exact ⟨hb.1.trans ha.1, hb.2.trans ha.2⟩

theorem modelStep_total (s t : ModelState) (h : modelStep s = some t) :
    totalWealth t = totalWealth s := by
  unfold modelStep at h
  rcases Option.bind_eq_some.mp h with ⟨s1, h1, h2⟩
  have e1 := foldl_agentStep_total _ _ _ h1
  have e2 := (collect_frame _ _ h2).1
  calc totalWealth t = totalWealth s1 := by simp [totalWealth, e2]
    _ = totalWealth s := e1

/-! ### Non-negativity of wealth -/

/-- Every agent of the population has non-negative wealth. -/
def AllNonneg (l : List AgentSt) : Prop :=
  ∀ a ∈ l, 0 ≤ a.wealth

theorem map_wealth_setPos (l : List AgentSt) (i : Nat) (p : Nat × Nat) :
    (setPos l i p).map AgentSt.wealth = l.map AgentSt.wealth := by
  induction l generalizing i with
  | nil => rfl
  | cons a l ih =>
    cases i with
    | zero => simp [setPos]
    | succ i => simp [setPos, ih]

theorem allNonneg_setPos (l : List AgentSt) (i : Nat) (p : Nat × Nat)
    (h : AllNonneg l) : AllNonneg (setPos l i p) := by
  intro a ha
  have hmem : a.wealth ∈ (setPos l i p).map AgentSt.wealth :=
    List.mem_map_of_mem _ ha
  rw [map_wealth_setPos] at hmem
  rcases List.mem_map.mp hmem with ⟨b, hb, he⟩
  rw [← he]
  exact h b hb

theorem give_money_nonneg (s : ModelState) (i : Nat)
    (hw : ∀ b, s.agents.get? i = some b → 0 < b.wealth)
    (hnn : AllNonneg s.agents) : AllNonneg (give_money s i).agents := by
  unfold give_money
  split
  · exact hnn
  next a' ha' =>
    simp only []
    split
    · split
      · exact hnn
      next other hc =>
        intro b hb
        rcases List.mem_iff_get?.mp hb with ⟨j, hj⟩
        rw [get?_updWealth, get?_updWealth] at hj
        rcases Option.map_eq_some'.mp hj with ⟨c1, hc1, hb2⟩
        rcases Option.map_eq_some'.mp hc1 with ⟨c0, hc0, hb1⟩
        have h0 : 0 ≤ c0.wealth := hnn c0 (List.get?_mem hc0)
        by_cases hji : j = i
        · have h1w : 1 ≤ c0.wealth := by
            apply hw c0
            rw [← hji]
            exact hc0
          by_cases hjo : j = other
          · rw [if_pos hjo] at hb1
            rw [if_pos hji] at hb2
            subst hb1; subst hb2
            simp only []
            omega
          · rw [if_neg hjo] at hb1
            rw [if_pos hji] at hb2
            subst hb1; subst hb2
            simp only []
            omega
        · by_cases hjo : j = other
          · rw [if_pos hjo] at hb1
            rw [if_neg hji] at hb2
            subst hb1; subst hb2
            simp only []
            omega
          · rw [if_neg hjo] at hb1
            rw [if_neg hji] at hb2
            subst hb1; subst hb2
            exact h0
    · exact hnn

theorem agentStep_nonneg (s : ModelState) (i : Nat) (t : ModelState)
    (h : agentStep s i = some t) (hnn : AllNonneg s.agents) :
    AllNonneg t.agents := by
  unfold agentStep at h
  rcases Option.map_eq_some'.mp h with ⟨s1, hmv, ht⟩
  have h1 : AllNonneg s1.agents := by
    unfold moveAgent at hmv
    split at hmv
    · exact absurd hmv (by simp)
    split at hmv
    · exact absurd hmv (by simp)
    simp only [Option.some.injEq] at hmv
    subst hmv
    exact allNonneg_setPos _ _ _ hnn
  subst ht
  cases hga : s1.agents.get? i with
  | none => simpa [hga] using h1
  | some a =>
    by_cases hw : 0 < a.wealth
    · have hw' : ∀ b, s1.agents.get? i = some b → 0 < b.wealth := by
        intro b hb
        rw [hga] at hb
        rw [← Option.some.inj hb]
        exact hw
      simpa [hga, hw] using give_money_nonneg s1 i hw' h1
    · simpa [hga, hw] using h1

theorem foldl_agentStep_nonneg (order : List Nat) :
    ∀ s t : ModelState, order.foldlM agentStep s = some t →
      AllNonneg s.agents → AllNonneg t.agents := by
  induction order with
  | nil =>
    intro s t h hnn
    simp only [List.foldlM_nil, pure, Option.some.injEq] at h
    subst h; exact hnn
  | cons i rest ih =>
    intro s t h hnn
    rw [List.foldlM_cons] at h
    rcases Option.bind_eq_some.mp h with ⟨s1, h1, h2⟩
    exact ih s1 t h2 (agentStep_nonneg s i s1 h1 hnn)

theorem collect_agents (s t : ModelState) (h : collect s = some t) :
    t.agents = s.agents :=
  (collect_frame s t h).1

theorem modelStep_nonneg (s t : ModelState) (h : modelStep s = some t)
    (hnn : AllNonneg s.agents) : AllNonneg t.agents := by
  unfold modelStep at h
  rcases Option.bind_eq_some.mp h with ⟨s1, h1, h2⟩
  have e1 := foldl_agentStep_nonneg _ _ _ h1 hnn
  have e2 := collect_agents _ _ h2
  rw [e2]
  exact e1

theorem stepK_nonneg (k : Nat) :
    ∀ s t : ModelState, stepK k s = some t → AllNonneg s.agents →
      AllNonneg t.agents := by
  induction k with
  | zero =>
    intro s t h hnn
    simp only [stepK, Option.some.injEq] at h
    subst h; exact hnn
  | succ k ih =>
    intro s t h hnn
    simp only [stepK] at h
    rcases Option.bind_eq_some.mp h with ⟨s1, h1, h2⟩
    exact ih s1 t h2 (modelStep_nonneg s s1 h1 hnn)

theorem mkModel_agents (n width height : Nat) (rng : List Nat) (s : ModelState)
    (h : mkModel n width height rng = some s) :
    s.agents = (List.range n).map fun i =>
      { pos := (drawAt rng i % width, drawAt rng (n + i) % height),
        wealth := (1 : Int) } := by
  unfold mkModel at h
  exact collect_agents _ _ h

theorem mkModel_nonneg (n width height : Nat) (rng : List Nat) (s : ModelState)
    (h : mkModel n width height rng = some s) : AllNonneg s.agents := by
  rw [mkModel_agents n width height rng s h]
  intro a ha
  rcases List.mem_map.mp ha with ⟨i, _, he⟩
  rw [← he]
  norm_num

theorem runModel_nonneg (n width height k : Nat) (rng : List Nat)
    (s : ModelState) (h : runModel n width height rng k = some s) :
    AllNonneg s.agents := by
  unfold runModel at h
  rcases Option.bind_eq_some.mp h with ⟨s0, h0, hk⟩
  exact stepK_nonneg k s0 s hk (mkModel_nonneg n width height rng s0 h0)

/-! ### Initial wealth and conservation over a whole run -/

theorem stepK_total (k : Nat) :
    ∀ s t : ModelState, stepK k s = some t → totalWealth t = totalWealth s := by
  induction k with
  | zero =>
    intro s t h
    simp only [stepK, Option.some.injEq] at h
    subst h; rfl
  | succ k ih =>
    intro s t h
    simp only [stepK] at h
    rcases Option.bind_eq_some.mp h with ⟨s1, h1, h2⟩
    exact (ih s1 t h2).trans (modelStep_total s s1 h1)

theorem mkModel_wealth_one (n width height : Nat) (rng : List Nat)
    (s : ModelState) (h : mkModel n width height rng = some s) :
    ∀ a ∈ s.agents, a.wealth = 1 := by
  rw [mkModel_agents n width height rng s h]
  intro a ha
  rcases List.mem_map.mp ha with ⟨i, _, he⟩
  rw [← he]

theorem mkModel_total (n width height : Nat) (rng : List Nat)
    (s : ModelState) (h : mkModel n width height rng = some s) :
    totalWealth s = n := by
  have ha := mkModel_agents n width height rng s h
  have hmap : ((List.range n).map (Function.const Nat (1 : Int))) = List.replicate n 1 := by
    rw [List.map_const (List.range n) (1 : Int), List.length_range]
  simp only [totalWealth, wsum, ha, List.map_map]
  have hc : (AgentSt.wealth ∘ fun i =>
      ({ pos := (drawAt rng i % width, drawAt rng (n + i) % height),
         wealth := (1 : Int) } : AgentSt)) = Function.const Nat (1 : Int) := rfl
  rw [hc, hmap, List.sum_replicate]
  simp

/-! ### Concrete states used by witnesses and counterexamples -/

/-- One agent on a 2×2 toroidal grid, as built by mkModel 1 2 2 with the
all-zero stream. -/
def witModel : ModelState :=
  { width := 2, height := 2, num_agents := 1,
    agents := [{ pos := (0, 0), wealth := 1 }],
    rng := [], rngIdx := 2, steps := 0, gini := [0], wealthTable := [[1]] }

/-- One agent on a degenerate 1×1 toroidal grid, as built by mkModel 1 1 1
with the all-zero stream. -/
def oneCellModel : ModelState :=
  { width := 1, height := 1, num_agents := 1,
    agents := [{ pos := (0, 0), wealth := 1 }],
    rng := [], rngIdx := 2, steps := 0, gini := [0], wealthTable := [[1]] }

/-- Two agents sharing cell (0,0) of a 2×2 grid, with a stream whose next
draw makes random.choice select index 0 of the cellmates list — the acting
agent itself. -/
def twoMatesModel : ModelState :=
  { width := 2, height := 2, num_agents := 2,
    agents := [{ pos := (0, 0), wealth := 1 }, { pos := (0, 0), wealth := 1 }],
    rng := [0], rngIdx := 0, steps := 0, gini := [], wealthTable := [] }

/-! ### Claim theorems -/

/-- Claim C1: wealth conservation — for every model state (in particular every
reachable one, for any population size and any number of preceding steps), a
successful call of MoneyModel.step leaves the sum of all agents' wealth
unchanged. -/
theorem wealth_conservation (s t : ModelState) (h : modelStep s = some t) :
    totalWealth t = totalWealth s :=
  modelStep_total s t h

/-- Witness for the conservation theorem at a concrete model: one agent on a
2×2 grid after one step. -/
theorem wealth_conservation_witness :
    (modelStep witModel).map totalWealth = some (totalWealth witModel) := by
  cases h : modelStep witModel with
  | none => exact absurd h (by with_unfolding_all decide)
  | some t =>
    rw [Option.map_some']
    exact congrArg some (wealth_conservation witModel t h)

/-- Counterexample for claim C2: in a cell occupied by two agents, the drawn
random value selects index 0 of the cellmates list, which is the acting agent
itself; the acting agent gives the unit of wealth to itself, so its wealth
stays 1 instead of decreasing by 1 — the claim that the selected occupant is
never the acting agent, and that its wealth decreases by exactly 1, is false
on the code. -/
theorem give_money_self_selection_cex :
    1 < (cellmates twoMatesModel (0, 0)).length ∧
    choice (cellmates twoMatesModel (0, 0))
      (drawAt twoMatesModel.rng twoMatesModel.rngIdx) = some 0 ∧
    (give_money twoMatesModel 0).agents.map AgentSt.wealth = [1, 1] ∧
    twoMatesModel.agents.map AgentSt.wealth = [1, 1] := by decide

/-- Claim C2 (amended): in the transfer phase, if more than one agent
(including the acting agent) occupies the cell, the code selects one occupant
of the cell — possibly the acting agent itself — via a uniform draw over the
occupant list, adds one unit of wealth to the selected occupant and removes
one from the acting agent (a net no-op when it selects itself, and a transfer
of exactly one unit otherwise); if the acting agent is the sole occupant, no
transfer occurs and the state is unchanged. -/
theorem give_money_transfer (s : ModelState) (i : Nat) (a : AgentSt)
    (ha : s.agents.get? i = some a) :
    ((cellmates s a.pos).length ≤ 1 → give_money s i = s) ∧
    (1 < (cellmates s a.pos).length →
      ∃ j, choice (cellmates s a.pos) (drawAt s.rng s.rngIdx) = some j ∧
        j ∈ cellmates s a.pos ∧
        (give_money s i).agents = updWealth (updWealth s.agents j 1) i (-1) ∧
        ∀ k, (give_money s i).agents.get? k = (s.agents.get? k).map fun c =>
          { c with wealth := c.wealth + (if k = j then 1 else 0)
                              + (if k = i then -1 else 0) }) := by
  constructor
  · intro hle
    simp only [give_money, ha]
    rw [if_neg (by omega)]
  · intro hgt
    have hne : cellmates s a.pos ≠ [] := by
      intro hnil
      rw [hnil] at hgt
      simp at hgt
    have hlt : drawAt s.rng s.rngIdx % (cellmates s a.pos).length
        < (cellmates s a.pos).length := Nat.mod_lt _ (by omega)
    cases hc : choice (cellmates s a.pos) (drawAt s.rng s.rngIdx) with
    | none =>
      exfalso
      unfold choice at hc
      rw [List.get?_eq_none] at hc
      omega
    | some j =>
      refine ⟨j, rfl, choice_mem _ _ _ hc, ?_, ?_⟩
      · simp only [give_money, ha]
        rw [if_pos hgt, hc]
      · intro k
        have hag : (give_money s i).agents
            = updWealth (updWealth s.agents j 1) i (-1) := by
          simp only [give_money, ha]
          rw [if_pos hgt, hc]
        rw [hag, get?_updWealth, get?_updWealth]
        cases hk : s.agents.get? k with
        | none => rfl
        | some c =>
          simp only [Option.map_some', Option.some.injEq]
          by_cases hkj : k = j
          · by_cases hki : k = i
            · rw [if_pos hkj, if_pos hki, if_pos hkj, if_pos hki]
            · rw [if_pos hkj, if_neg hki, if_pos hkj, if_neg hki]
              simp
          · by_cases hki : k = i
            · rw [if_neg hkj, if_pos hki, if_neg hkj, if_pos hki]
              simp
            · rw [if_neg hkj, if_neg hki, if_neg hkj, if_neg hki]
              simp

/-- Witness for the amended transfer theorem: in twoMatesModel the draw
selects the acting agent itself and its wealth is unchanged. -/
theorem give_money_transfer_witness :
    (give_money twoMatesModel 0).agents.get? 0
      = some { pos := (0, 0), wealth := 1 } := by
  have h := (give_money_transfer twoMatesModel 0 { pos := (0, 0), wealth := 1 }
    (by decide)).2 (by decide)
  rcases h with ⟨j, hj, _, _, hk⟩
  have hj0 : j = 0 := by
    have : choice (cellmates twoMatesModel (0, 0))
        (drawAt twoMatesModel.rng twoMatesModel.rngIdx) = some 0 := by decide
    have h2 := hj.symm.trans this
    exact Option.some.inj h2
  subst hj0
  rw [hk 0]
  decide

/-- Claim C3 at the failing input: on a degenerate 1×1 toroidal grid the
spec-modelled radius-1 Moore neighborhood of (0,0) excluding the center is
empty, and MoneyAgent.move's unguarded random.choice on that empty sequence
fails (Python IndexError, embedded as none) — so the move phase, the agent
step and the model step all fail instead of completing as a no-op, contrary
to the claim (and to the spec's stated intent that this is not an error). -/
theorem move_empty_neighborhood_fails :
    get_neighborhood 1 1 (0, 0) = [] ∧
    mkModel 1 1 1 [] = some oneCellModel ∧
    moveAgent oneCellModel 0 = none ∧
    agentStep oneCellModel 0 = none ∧
    modelStep oneCellModel = none := by with_unfolding_all decide

/-- Claim C4: the inequality-coefficient formula — for N > 0 and positive
total wealth, compute_gini returns exactly 1 + 1/N − 2B where
B = (Σ x[i]·(N−i)) / (N·Σx) over the ascending-sorted wealth list x. -/
theorem compute_gini_formula (N : Nat) (wealths : List Int)
    (hN : 0 < N) (hsum : 0 < wealths.sum) :
    compute_gini N wealths =
      some (1 + 1 / (N : ℚ) -
        2 * ((((List.insertionSort (fun a b => a ≤ b) wealths).enum.map
            fun p => ((p.2 : ℚ) * ((N : ℚ) - (p.1 : ℚ)))).sum) /
          ((N : ℚ) * ((wealths.sum : Int) : ℚ)))) := by
  have hx : (List.insertionSort (fun a b => a ≤ b) wealths).sum = wealths.sum :=
    (List.perm_insertionSort _ _).sum_eq
  have hne : ¬ ((N : Int) * (List.insertionSort (fun a b => a ≤ b) wealths).sum = 0) := by
    rw [hx]
    have h1 : (0 : Int) < (N : Int) := by exact_mod_cast hN
    have := mul_pos h1 hsum
    omega
  simp only [compute_gini]
  rw [if_neg hne, hx, Int.cast_mul, Int.cast_natCast]

/-- Witness for the inequality-coefficient formula at wealths [1,3]:
sorted x = [1,3], B = (1·2 + 3·1)/(2·4) = 5/8, coefficient
1 + 1/2 − 2·(5/8) = 1/4. -/
theorem compute_gini_formula_witness :
    compute_gini 2 [1, 3] = some (1 / 4) := by
  have h := compute_gini_formula 2 [1, 3] (by norm_num) (by decide)
  rw [h]
  with_unfolding_all decide

/-- Counterexample for claim C5: with two agents of wealth 0 the computation
does not produce any defined degenerate value — the unguarded division by
N·Σx = 0 fails (Python ZeroDivisionError, embedded as none). -/
theorem compute_gini_zero_sum_cex : compute_gini 2 [0, 0] = none := by decide

/-- Claim C5 (amended): whenever the agents' total wealth is zero the
inequality-coefficient computation is unguarded and fails with a
division-by-zero error; no defined degenerate value is produced. -/
theorem compute_gini_zero_sum (N : Nat) (wealths : List Int)
    (h : wealths.sum = 0) : compute_gini N wealths = none := by
  have hx : (List.insertionSort (fun a b => a ≤ b) wealths).sum = wealths.sum :=
    (List.perm_insertionSort _ _).sum_eq
  have hc : (N : Int) * (List.insertionSort (fun a b => a ≤ b) wealths).sum = 0 := by
    rw [hx, h, mul_zero]
  simp only [compute_gini]
  rw [if_pos hc]

/-- Witness for the zero-total-wealth failure at a second concrete input. -/
theorem compute_gini_zero_sum_witness : compute_gini 3 [1, -1, 0] = none :=
  compute_gini_zero_sum 3 [1, -1, 0] (by decide)

/-- Claim C6: non-negativity — in every state reachable by constructing the
model and running any number of successful steps, every agent's wealth is a
non-negative integer. -/
theorem wealth_nonneg (n width height k : Nat) (rng : List Nat)
    (s : ModelState) (h : runModel n width height rng k = some s) :
    ∀ a ∈ s.agents, (0 : Int) ≤ a.wealth :=
  runModel_nonneg n width height k rng s h

/-- Witness for non-negativity after one step of a one-agent model. -/
theorem wealth_nonneg_witness :
    (runModel 1 2 2 [] 1).map
      (fun s => s.agents.all fun a => decide ((0 : Int) ≤ a.wealth)) = some true := by
  cases h : runModel 1 2 2 [] 1 with
  | none => exact absurd h (by with_unfolding_all decide)
  | some t =>
    rw [Option.map_some']
    refine congrArg some ?_
    rw [List.all_eq_true]
    intro a ha
    exact decide_eq_true (wealth_nonneg 1 2 2 1 [] t h a ha)

/-- Claim C7: determinism — the embedding threads the single seeded random
source explicitly as a stream, so two models constructed from identical seed
streams with identical agent count and grid size, driven by the same number
of step() calls, have identical agent lists (positions and wealths),
identical metrics series and identical step counters at every tick. -/
theorem determinism (n width height k : Nat) (r1 r2 : List Nat)
    (hseed : r1 = r2) :
    (runModel n width height r1 k).map
        (fun s => (s.agents, s.gini, s.wealthTable, s.steps)) =
      (runModel n width height r2 k).map
        (fun s => (s.agents, s.gini, s.wealthTable, s.steps)) := by
  rw [hseed]

/-- Witness for determinism at a concrete seed stream. -/
theorem determinism_witness :
    (runModel 2 10 10 [3, 1, 4, 1, 5] 2).map
        (fun s => (s.agents, s.gini, s.wealthTable, s.steps)) =
      (runModel 2 10 10 [3, 1, 4, 1, 5] 2).map
        (fun s => (s.agents, s.gini, s.wealthTable, s.steps)) :=
  determinism 2 10 10 2 [3, 1, 4, 1, 5] [3, 1, 4, 1, 5] rfl

/-- Claim C8: step structure — a successful MoneyModel.step draws an
activation order from the shared random source at the current stream
position (a permutation of the whole population, so each agent's step runs
exactly once), folds the agent steps sequentially in that order, and only
then increments the step counter and performs exactly one metrics capture
(one new entry in each series); moreover the order is not fixed: different
stream values produce different activation orders. -/
theorem model_step_structure (s t : ModelState) (h : modelStep s = some t) :
    (∃ order idx1,
      shuffle s.rng s.rngIdx (List.range s.agents.length) = (order, idx1) ∧
      order.Perm (List.range s.agents.length) ∧
      ∃ s1, order.foldlM agentStep { s with rngIdx := idx1 } = some s1 ∧
        collect { s1 with steps := s1.steps + 1 } = some t ∧
        t.gini.length = s.gini.length + 1 ∧
        t.wealthTable.length = s.wealthTable.length + 1) ∧
    (shuffle [0] 0 [0, 1]).1 ≠ (shuffle [1] 0 [0, 1]).1 := by
  constructor
  · unfold modelStep at h
    rcases Option.bind_eq_some.mp h with ⟨s1, h1, h2⟩
    refine ⟨(shuffle s.rng s.rngIdx (List.range s.agents.length)).1,
      (shuffle s.rng s.rngIdx (List.range s.agents.length)).2, rfl,
      shuffle_perm _ _ _, s1, h1, h2, ?_, ?_⟩
    · have hf := foldl_agentStep_frame _ _ _ h1
      have hcf := collect_frame _ _ h2
      rw [hcf.2.1]
      simp only [hf.1]
    · have hf := foldl_agentStep_frame _ _ _ h1
      have hcf := collect_frame _ _ h2
      rw [hcf.2.2.1]
      simp only [hf.2]
  · decide

/-- Witness for the step-structure theorem: one step of witModel appends
exactly one entry to the Gini series. -/
theorem model_step_structure_witness :
    (modelStep witModel).map (fun t => t.gini.length) = some 2 := by
  cases h : modelStep witModel with
  | none => exact absurd h (by with_unfolding_all decide)
  | some t =>
    rcases (model_step_structure witModel t h).1 with
      ⟨o, i1, _, _, s1, _, _, hg, _⟩
    rw [Option.map_some']
    refine congrArg some ?_
    rw [hg]
    rfl

/-- Claim C9: neighborhood correctness — on a 10×10 toroidal grid the
radius-1 Moore neighborhood of (0,0) excluding the center is exactly the 8
wrapped positions (9,9), (9,0), (9,1), (0,9), (0,1), (1,9), (1,0), (1,1). -/
theorem neighborhood_toroidal_10x10 :
    get_neighborhood 10 10 (0, 0) =
      [(9, 9), (9, 0), (9, 1), (0, 9), (0, 1), (1, 9), (1, 0), (1, 1)] := by
  decide

/-- Claim C10: every agent is constructed with wealth exactly 1, so right
after construction with agent count n the total wealth equals n, and it is
still n after any number of successful steps. -/
theorem initial_wealth (n width height k : Nat) (rng : List Nat)
    (s0 s : ModelState) (h0 : mkModel n width height rng = some s0)
    (hk : runModel n width height rng k = some s) :
    (∀ a ∈ s0.agents, a.wealth = 1) ∧ totalWealth s0 = n ∧ totalWealth s = n := by
  refine ⟨mkModel_wealth_one n width height rng s0 h0,
    mkModel_total n width height rng s0 h0, ?_⟩
  unfold runModel at hk
  rw [h0] at hk
  simp only [Option.some_bind] at hk
  rw [stepK_total k s0 s hk]
  exact mkModel_total n width height rng s0 h0

/-- Witness for the initial-wealth theorem: a one-agent model carries total
wealth 1 after construction and after one step. -/
theorem initial_wealth_witness :
    (runModel 1 2 2 [] 1).map totalWealth = some 1 := by
  cases h0 : mkModel 1 2 2 [] with
  | none => exact absurd h0 (by with_unfolding_all decide)
  | some s0 =>
    cases hk : runModel 1 2 2 [] 1 with
    | none => exact absurd hk (by with_unfolding_all decide)
    | some s =>
      have h := initial_wealth 1 2 2 1 [] s0 s h0 hk
      rw [Option.map_some']
      refine congrArg some ?_
      rw [h.2.2]
      norm_num

end Boltzmann
